import Mathlib

/-!
Verification development for the hand-rolled ID3 decision-tree classifier in
src/DecisionTrees.py (class DecisionTree): column selection by information
gain, capped table partitioning, recursive tree construction with
gain-threshold pruning, tree-walking prediction, and the evaluation loop.

Modelling conventions:
* A pandas DataFrame becomes a `Dataset`: an ordered list of column names
  (the last one is the label) together with a list of rows, each row a list
  of cell values aligned with the column list.
* Column names have type `C` (with decidable equality) and cell values have
  type `V` (with a decidable linear order, used by the model of np.unique,
  which sorts).  The repository feeds discretized/bucketed values here.
* The external collaborator info_gain (from Preprocessing.py, outside src/)
  is an abstract parameter `ig : Dataset C V -> C -> Rat`; the spec treats it
  as a pure function returning a float, modelled with rationals.
* Python exceptions are modelled with `Except`: an `.error` value means the
  corresponding Python call raises.
* The unbounded Python recursion of build_tree is modelled with an explicit
  fuel (allowed recursion depth); `.error .fuelOut` means the modelled
  recursion depth was exhausted, an artefact of the embedding, never the
  behaviour of the source at any terminating input.
-/

set_option linter.unusedSectionVars false

namespace DecisionTrees

/-- Tabular dataset: ordered column names (last one is the label column) and
rows aligned with them, modelling the pandas DataFrame of the source. -/
structure Dataset (C V : Type) where
  cols : List C
  rows : List (List V)
deriving Repr

variable {C V : Type} [DecidableEq C] [Inhabited C] [LinearOrder V] [Inhabited V]

/-- Cell access row[column], modelling data[column] for a single row.  The
source indexes by column name; out-of-range access (absent column or short
row) yields the default value, a case the preconditions of every claim rule
out (pandas would raise there). -/
def cell (d : Dataset C V) (r : List V) (c : C) : V :=
  r.getD (d.cols.indexOf c) default

/-- Column values data[column] as a list, in row order. -/
def colVals (d : Dataset C V) (c : C) : List V :=
  d.rows.map (fun r => cell d r c)

/-- Model of np.unique: the distinct values of a list in ascending sorted
order. -/
def npUnique (l : List V) : List V :=
  List.insertionSort (fun a b => a ≤ b) l.dedup

/-- Model of the Python builtin max over a nonempty list of floats
(line 32 of the source: max(ig_values)); none on the empty list, where
Python raises ValueError. -/
def maxList : List ℚ → Option ℚ
  | [] => none
  | x :: xs =>
    match maxList xs with
    | none => some x
    | some m => some (max x m)

/-- Model of np.argmax (line 32 of the source): index of the first occurrence
of the maximum; none on the empty list, where numpy raises ValueError. -/
def argmaxIdx : List ℚ → Option Nat
  | [] => none
  | x :: xs =>
    match argmaxIdx xs, maxList xs with
    | some j, some m => if x < m then some (j + 1) else some 0
    | _, _ => some 0

/-- Model of DecisionTree.find_best_column (source lines 23-32): score every
column except the last (label) by info gain and return the argmax column
together with the maximum gain.  Returns none exactly when there is no
non-label column (numpy/Python raise there). -/
def find_best_column (ig : Dataset C V → C → ℚ) (d : Dataset C V) :
    Option (C × ℚ) :=
  let keys := d.cols.dropLast
  let igValues := keys.map (ig d)
  match argmaxIdx igValues with
  | none => none
  | some i =>
    match keys.get? i with
    | none => none
    | some c =>
      match maxList igValues with
      | none => none
      | some m => some (c, m)

/-- Model of DecisionTree.get_sub_table (source lines 34-48): the rows whose
value in the given column equals the given label, in original order
(reset_index only renumbers, which a list does not carry), truncated to the
first 100 matches when more than 100 rows match. -/
def get_sub_table (d : Dataset C V) (column : C) (label : V) : Dataset C V :=
  let temp_table := d.rows.filter (fun r => decide (cell d r column = label))
  if temp_table.length > 100 then
    ⟨d.cols, (d.rows.filter (fun r => decide (cell d r column = label))).take 100⟩
  else
    ⟨d.cols, d.rows.filter (fun r => decide (cell d r column = label))⟩

/-- Nested-dictionary decision tree as built by the source: a leaf is a bare
label value; an internal node is a Python dict mapping column names to dicts
from column values to subtrees.  build_tree only ever creates single-entry
outer dicts, but the type keeps the general dict shape of the source. -/
inductive PTree (C V : Type) where
  | leaf (v : V)
  | node (entries : List (C × List (V × PTree C V)))

/-- Failure modes of the modelled build_tree.  fuelOut is the embedding
artefact for exceeding the modelled recursion depth; noColumns models the
numpy ValueError of argmax on an empty candidate list (dataset without a
non-label column); emptyIndex models the IndexError of column_values[0] on
an empty array (empty partition). -/
inductive BuildErr where
  | fuelOut
  | noColumns
  | emptyIndex
deriving DecidableEq, Repr

/-- Label column data.columns[-1] (source line 72). -/
def labelCol (d : Dataset C V) : C :=
  d.cols.getLastD default

/-- Branch construction for one distinct value of the selected column,
modelling the body of the loop at source lines 70-81: partition, compute the
distinct label values of the partition (np.unique with counts), then prune
by gain threshold (line 75-76), prune by purity (line 78-79), or recurse
(line 81, via the supplied continuation rec). -/
def branchFor (t : ℚ) (rec : Dataset C V → Except BuildErr (PTree C V))
    (d : Dataset C V) (node : C) (gain : ℚ) (v : V) :
    Except BuildErr (PTree C V) :=
  let sub_table := get_sub_table d node v
  let column_values := npUnique (colVals sub_table (labelCol d))
  if gain < t then
    match column_values.head? with
    | none => .error .emptyIndex
    | some l => .ok (.leaf l)
  else if column_values.length = 1 then
    match column_values.head? with
    | none => .error .emptyIndex
    | some l => .ok (.leaf l)
  else
    rec sub_table

/-- The loop for value in node_unique_values (source lines 70-81), collecting
tree[node][value] assignments in order as an association list. -/
def buildChildren (t : ℚ) (rec : Dataset C V → Except BuildErr (PTree C V))
    (d : Dataset C V) (node : C) (gain : ℚ) :
    List V → Except BuildErr (List (V × PTree C V))
  | [] => .ok []
  | v :: vs =>
    match branchFor t rec d node gain v with
    | .error e => .error e
    | .ok c =>
      match buildChildren t rec d node gain vs with
      | .error e => .error e
      | .ok rest => .ok ((v, c) :: rest)

/-- One level of DecisionTree.build_tree (source lines 50-83): select the
best column, enumerate its distinct values, and fill the fresh single-key
dictionary tree = {node: {}}.  The tree parameter of the source is always
None both at the call in train (line 142) and at the recursive call
(line 81), so it is not modelled. -/
def buildStep (ig : Dataset C V → C → ℚ) (t : ℚ)
    (rec : Dataset C V → Except BuildErr (PTree C V)) (d : Dataset C V) :
    Except BuildErr (PTree C V) :=
  match find_best_column ig d with
  | none => .error .noColumns
  | some (node, gain) =>
    match buildChildren t rec d node gain (npUnique (colVals d node)) with
    | .error e => .error e
    | .ok children => .ok (.node [(node, children)])

/-- DecisionTree.build_tree (source lines 50-83) with explicit recursion
depth fuel; self.threshold is the pruning threshold t. -/
def build_tree (ig : Dataset C V → C → ℚ) (t : ℚ) :
    Nat → Dataset C V → Except BuildErr (PTree C V)
  | 0 => fun _ => .error .fuelOut
  | fuel + 1 => buildStep ig t (build_tree ig t fuel)

/-- Failure modes of the modelled predict.  attributeError models the Python
AttributeError of tree.keys() when predict is applied to a bare leaf value
(source line 93); fuelOut is the embedding artefact for exhausting the
modelled traversal depth. -/
inductive PredErr where
  | fuelOut
  | attributeError
deriving DecidableEq, Repr

/-- The loop of DecisionTree.predict (source lines 92-106).  The key list is
fixed once from tree.keys() while the name tree is rebound to the child on a
successful lookup, exactly as in the source; keys keeps the remaining
iterations and es the entries of the current (possibly rebound) dict.  The
accumulator pred starts as the numeric sentinel 0, modelled as none; a
KeyError of data[node], tree[node] or tree[node][node_value] is caught and
the loop continues; a dict child recurses and continues; a leaf child sets
the prediction and breaks. -/
def predictGo (record : List (C × V)) :
    Nat → List C → List (C × List (V × PTree C V)) → Option V →
    Except PredErr (Option V)
  | 0, _, _, _ => .error .fuelOut
  | _ + 1, [], _, pred => .ok pred
  | fuel + 1, node :: keys, es, pred =>
    match List.lookup node record with
    | none => predictGo record fuel keys es pred
    | some node_value =>
      match List.lookup node es with
      | none => predictGo record fuel keys es pred
      | some valdict =>
        match List.lookup node_value valdict with
        | none => predictGo record fuel keys es pred
        | some child =>
          match child with
          | .leaf l => .ok (some l)
          | .node es2 =>
            match predictGo record fuel (es2.map Prod.fst) es2 none with
            | .error e => .error e
            | .ok p => predictGo record fuel keys es2 p

/-- DecisionTree.predict (source lines 85-106).  The prediction is an
Option V: none models the numeric sentinel 0 the accumulator starts from,
some l a label taken from the tree.  Applying it to a bare leaf raises
AttributeError since a non-dict has no keys(). -/
def predict (fuel : Nat) (tree : PTree C V) (record : List (C × V)) :
    Except PredErr (Option V) :=
  match tree with
  | .leaf _ => .error .attributeError
  | .node es => predictGo record fuel (es.map Prod.fst) es none

/-- Evaluation report of DecisionTree.test: correct count (self.score),
total row count, the accumulated predictions (self.prediction_data) and the
accuracy percentage; the source prints round(accuracy, 4), a display-only
rounding not kept by the model. -/
structure Report (V : Type) where
  score : Nat
  total : Nat
  predictions : List (Option V)
  accuracy : ℚ

/-- Failure modes of the modelled evaluation loop: a propagated predict
exception, or the ZeroDivisionError of score / len(test_data) on an empty
test dataset (source line 162). -/
inductive TestErr where
  | predErr (e : PredErr)
  | zeroDiv
deriving DecidableEq, Repr

/-- The row loop of DecisionTree.test (source lines 150-158): build the
record dict over all columns, predict, append the prediction, and compare
the row's label cell (the variable column ends each inner loop holding the
last column name) against the prediction.  The Python comparison
label == prediction is False whenever the prediction is the numeric
sentinel 0, since labels here are discretized category values. -/
def testLoop (pfuel : Nat) (tr : PTree C V) (d : Dataset C V) :
    List (List V) → Nat → List (Option V) →
    Except TestErr (Nat × List (Option V))
  | [], score, preds => .ok (score, preds)
  | row :: rest, score, preds =>
    match predict pfuel tr (d.cols.zip row) with
    | .error e => .error (.predErr e)
    | .ok p =>
      let actual := cell d row (labelCol d)
      let score2 := if p = some actual then score + 1 else score
      testLoop pfuel tr d rest score2 (preds ++ [p])

/-- DecisionTree.test (source lines 145-162): run the loop over every test
row, then report correct count, total and accuracy correct / total * 100;
with zero test rows the final division raises ZeroDivisionError. -/
def testEval (pfuel : Nat) (tr : PTree C V) (d : Dataset C V) :
    Except TestErr (Report V) :=
  match testLoop pfuel tr d d.rows 0 [] with
  | .error e => .error e
  | .ok (score, preds) =>
    if d.rows.length = 0 then .error .zeroDiv
    else .ok ⟨score, d.rows.length, preds, (score : ℚ) / (d.rows.length : ℚ) * 100⟩

/-- Occurrence of a label value as a leaf somewhere in a tree. -/
inductive LeafIn : V → PTree C V → Prop
  | here (v : V) : LeafIn v (.leaf v)
  | there (v : V) (entries : List (C × List (V × PTree C V)))
      (col : C) (m : List (V × PTree C V)) (val : V) (child : PTree C V) :
      (col, m) ∈ entries → (val, child) ∈ m → LeafIn v child →
      LeafIn v (.node entries)

/-- Structural invariant of a tree with respect to the dataset it was built
from: the root is a single-column internal node whose child map has exactly
one entry per distinct value of that column observed in the dataset (keys
equal to np.unique of the column), and every internal child satisfies the
same invariant with respect to the partition of the dataset at its value. -/
inductive TreeFrom : Dataset C V → PTree C V → Prop
  | leaf (d : Dataset C V) (v : V) : TreeFrom d (.leaf v)
  | node (d : Dataset C V) (col : C) (children : List (V × PTree C V)) :
      children.map Prod.fst = npUnique (colVals d col) →
      (∀ v child, (v, child) ∈ children →
        TreeFrom (get_sub_table d col v) child) →
      TreeFrom d (.node [(col, children)])

/-! Basic lemmas about the model of np.unique. -/

theorem mem_npUnique {l : List V} {v : V} : v ∈ npUnique l ↔ v ∈ l := by
  unfold npUnique
  rw [(List.perm_insertionSort _ _).mem_iff]
  exact List.mem_dedup

theorem nodup_npUnique (l : List V) : (npUnique l).Nodup :=
  (List.perm_insertionSort _ _).nodup_iff.mpr (List.nodup_dedup l)

theorem npUnique_ne_nil {l : List V} (h : l ≠ []) : npUnique l ≠ [] := by
  obtain ⟨x, hx⟩ := List.exists_mem_of_ne_nil l h
  intro hnil
  have : x ∈ npUnique l := mem_npUnique.mpr hx
  rw [hnil] at this
  exact absurd this (List.not_mem_nil x)

theorem npUnique_head_some {l : List V} (h : l ≠ []) :
    ∃ x, (npUnique l).head? = some x := by
  have hne := npUnique_ne_nil h
  exact ⟨(npUnique l).head hne, List.head?_eq_head hne⟩

/-! Basic lemmas about the table partitioner. -/

theorem get_sub_table_cols (d : Dataset C V) (c : C) (v : V) :
    (get_sub_table d c v).cols = d.cols := by
  unfold get_sub_table
  dsimp only
  split <;> rfl

theorem get_sub_table_rows (d : Dataset C V) (c : C) (v : V) :
    (get_sub_table d c v).rows =
      (d.rows.filter (fun r => decide (cell d r c = v))).take 100 := by
  unfold get_sub_table
  dsimp only
  split
  · rfl
  · next hle =>
    show d.rows.filter (fun r => decide (cell d r c = v)) =
      (d.rows.filter (fun r => decide (cell d r c = v))).take 100
    exact (List.take_of_length_le (Nat.le_of_not_lt hle)).symm

theorem colVals_ne_nil {d : Dataset C V} (h : d.rows ≠ []) (c : C) :
    colVals d c ≠ [] := by
  unfold colVals
  simpa using h

theorem mem_colVals {d : Dataset C V} {c : C} {v : V} :
    v ∈ colVals d c ↔ ∃ r ∈ d.rows, cell d r c = v := by
  unfold colVals
  exact List.mem_map

theorem get_sub_table_rows_ne_nil {d : Dataset C V} {c : C} {v : V}
    (h : v ∈ npUnique (colVals d c)) : (get_sub_table d c v).rows ≠ [] := by
  obtain ⟨r, hr, hcell⟩ := mem_colVals.mp (mem_npUnique.mp h)
  rw [get_sub_table_rows]
  intro hnil
  rcases List.take_eq_nil_iff.mp hnil with h100 | hfil
  · exact absurd h100 (by omega)
  · have : r ∈ d.rows.filter (fun r => decide (cell d r c = v)) :=
      List.mem_filter.mpr ⟨hr, by simp [hcell]⟩
    rw [hfil] at this
    exact absurd this (List.not_mem_nil r)

theorem get_sub_table_sublist (d : Dataset C V) (c : C) (v : V) :
    (get_sub_table d c v).rows.Sublist d.rows := by
  rw [get_sub_table_rows]
  exact (List.take_sublist _ _).trans (List.filter_sublist _)

theorem exists_ne_of_nodup_two {l : List V} (hnd : l.Nodup)
    (hlen : 2 ≤ l.length) {v : V} (hv : v ∈ l) : ∃ w ∈ l, w ≠ v := by
  match l, hnd, hlen, hv with
  | a :: b :: rest, hnd, _, hv =>
    by_cases hva : v = a
    · refine ⟨b, by simp, ?_⟩
      intro hbv
      apply (List.nodup_cons.mp hnd).1
      rw [hva] at hbv
      rw [hbv]
      exact List.mem_cons_self _ _
    · exact ⟨a, by simp, fun h => hva h.symm⟩

theorem get_sub_table_rows_length_lt {d : Dataset C V} {c : C} {v : V}
    (hlen : 2 ≤ (npUnique (colVals d c)).length)
    (hv : v ∈ npUnique (colVals d c)) :
    (get_sub_table d c v).rows.length < d.rows.length := by
  obtain ⟨w, hw, hwv⟩ :=
    exists_ne_of_nodup_two (nodup_npUnique (colVals d c)) hlen hv
  obtain ⟨r, hr, hcell⟩ := mem_colVals.mp (mem_npUnique.mp hw)
  rw [get_sub_table_rows]
  have hfil : (d.rows.filter (fun r => decide (cell d r c = v))).length <
      d.rows.length := by
    rw [List.length_filter_lt_length_iff_exists]
    exact ⟨r, hr, by simp [hcell, hwv]⟩
  calc ((d.rows.filter (fun r => decide (cell d r c = v))).take 100).length
      ≤ (d.rows.filter (fun r => decide (cell d r c = v))).length :=
        (List.take_sublist _ _).length_le
    _ < d.rows.length := hfil

/-! Lemmas about the models of the Python builtin max and np.argmax. -/

theorem maxList_eq_none : ∀ {l : List ℚ}, maxList l = none → l = []
  | [], _ => rfl
  | x :: xs, h => by
    unfold maxList at h
    match hxs : maxList xs with
    | none => rw [hxs] at h; exact absurd h (by simp)
    | some m0 => rw [hxs] at h; exact absurd h (by simp)

theorem le_maxList {l : List ℚ} : ∀ {m : ℚ}, maxList l = some m →
    ∀ y ∈ l, y ≤ m := by
  induction l with
  | nil => intro m h; simp [maxList] at h
  | cons x xs ih =>
    intro m h y hy
    unfold maxList at h
    match hxs : maxList xs with
    | none =>
      rw [hxs] at h
      injection h with h
      subst h
      have hnil := maxList_eq_none hxs
      subst hnil
      rcases List.mem_cons.mp hy with rfl | h2
      · rfl
      · exact absurd h2 (List.not_mem_nil y)
    | some m0 =>
      rw [hxs] at h
      injection h with h
      subst h
      rcases List.mem_cons.mp hy with rfl | h2
      · exact le_max_left _ _
      · exact le_trans (ih hxs y h2) (le_max_right _ _)

theorem maxList_isSome {l : List ℚ} (h : l ≠ []) : ∃ m, maxList l = some m := by
  match hm : maxList l with
  | none => exact absurd (maxList_eq_none hm) h
  | some m => exact ⟨m, rfl⟩

theorem argmaxIdx_eq_none : ∀ {l : List ℚ}, argmaxIdx l = none → l = []
  | [], _ => rfl
  | x :: xs, h => by
    unfold argmaxIdx at h
    match h1 : argmaxIdx xs, h2 : maxList xs with
    | some j, some m => rw [h1, h2] at h; dsimp at h; split at h <;> simp at h
    | some j, none => rw [h1, h2] at h; simp at h
    | none, some m => rw [h1, h2] at h; simp at h
    | none, none => rw [h1, h2] at h; simp at h

theorem argmaxIdx_isSome {l : List ℚ} (h : l ≠ []) :
    ∃ i, argmaxIdx l = some i := by
  match hm : argmaxIdx l with
  | none => exact absurd (argmaxIdx_eq_none hm) h
  | some i => exact ⟨i, rfl⟩

/-- Specification of np.argmax: the returned index holds the maximum value
and every earlier index holds a strictly smaller value. -/
theorem argmaxIdx_spec : ∀ {l : List ℚ} {i : Nat}, argmaxIdx l = some i →
    ∃ m, maxList l = some m ∧ l.get? i = some m ∧
      ∀ j, j < i → ∀ y, l.get? j = some y → y < m
  | [], i, h => by simp [argmaxIdx] at h
  | x :: xs, i, h => by
    unfold argmaxIdx at h
    match h1 : argmaxIdx xs, h2 : maxList xs with
    | none, _ =>
      rw [h1] at h
      have hnil : xs = [] := argmaxIdx_eq_none h1
      subst hnil
      simp only [maxList] at h ⊢
      injection h with h
      subst h
      exact ⟨x, rfl, rfl, fun j hj => by omega⟩
    | some j, none =>
      exact absurd (maxList_eq_none h2) (by intro hnil; rw [hnil] at h1; simp [argmaxIdx] at h1)
    | some j, some m =>
      rw [h1, h2] at h
      dsimp at h
      obtain ⟨m', hm', hget, hlt⟩ := argmaxIdx_spec h1
      rw [h2] at hm'
      injection hm' with hm'
      subst hm'
      by_cases hx : x < m
      · rw [if_pos hx] at h
        injection h with h
        subst h
        refine ⟨m, by simp [maxList, h2, max_eq_right hx.le], by simpa using hget, ?_⟩
        intro k hk y hy
        match k, hy with
        | 0, hy => injection hy with hy; subst hy; exact hx
        | k' + 1, hy => exact hlt k' (by omega) y hy
      · rw [if_neg hx] at h
        injection h with h
        subst h
        refine ⟨x, by simp [maxList, h2, max_eq_left (le_of_not_lt hx)], rfl, ?_⟩
        intro k hk
        omega

/-! Characterization of the column selector. -/

theorem find_best_column_some (ig : Dataset C V → C → ℚ) {d : Dataset C V}
    (h : d.cols.dropLast ≠ []) :
    ∃ c g i, find_best_column ig d = some (c, g) ∧
      d.cols.dropLast.get? i = some c ∧ ig d c = g ∧
      (∀ k ∈ d.cols.dropLast, ig d k ≤ g) ∧
      (∀ j, j < i → ∀ k, d.cols.dropLast.get? j = some k → ig d k < g) := by
  have hne : d.cols.dropLast.map (ig d) ≠ [] := by
    intro hnil
    exact h (List.map_eq_nil_iff.mp hnil)
  obtain ⟨i, hi⟩ := argmaxIdx_isSome hne
  obtain ⟨m, hm, hget, hlt⟩ := argmaxIdx_spec hi
  have hkey : d.cols.dropLast.get? i = some (d.cols.dropLast.get? i).iget := by
    have : (d.cols.dropLast.map (ig d)).get? i ≠ none := by rw [hget]; simp
    match hk : d.cols.dropLast.get? i with
    | some c => rfl
    | none =>
      rw [List.get?_map, hk] at hget
      exact absurd hget (by simp)
  set c := (d.cols.dropLast.get? i).iget with hc
  refine ⟨c, m, i, ?_, hkey, ?_, ?_, ?_⟩
  · unfold find_best_column
    dsimp only
    rw [hi]
    dsimp only
    rw [hkey]
    dsimp only
    rw [hm]
  · have := hget
    rw [List.get?_map, hkey] at this
    simpa using this
  · intro k hk
    exact le_maxList hm (ig d k) (List.mem_map.mpr ⟨k, hk, rfl⟩)
  · intro j hj k hk
    apply hlt j hj
    rw [List.get?_map, hk]
    rfl

theorem find_best_column_eq {ig : Dataset C V → C → ℚ} {d : Dataset C V}
    {c : C} {g : ℚ} (h : find_best_column ig d = some (c, g)) :
    c ∈ d.cols.dropLast ∧ ig d c = g ∧ ∀ k ∈ d.cols.dropLast, ig d k ≤ g := by
  have hne : d.cols.dropLast ≠ [] := by
    intro hnil
    unfold find_best_column at h
    rw [hnil] at h
    simp [argmaxIdx] at h
  obtain ⟨c2, g2, i, heq, hkey, hig, hle, _⟩ := find_best_column_some ig hne
  rw [heq] at h
  injection h with h
  injection h with h1 h2
  subst h1
  subst h2
  exact ⟨List.get?_mem hkey, hig, hle⟩

/-! Association-list lookup helpers (Python dict access). -/

theorem lookup_cons_self {α β : Type} [DecidableEq α] (k : α) (b : β)
    (es : List (α × β)) : List.lookup k ((k, b) :: es) = some b := by
  simp [List.lookup]

theorem lookup_mem {α β : Type} [DecidableEq α] {k : α} {b : β} :
    ∀ {es : List (α × β)}, List.lookup k es = some b → (k, b) ∈ es := by
  intro es
  induction es with
  | nil => intro h; simp [List.lookup] at h
  | cons p tl ih =>
    intro h
    match p with
    | (k0, b0) =>
      by_cases hk : k = k0
      · subst hk
        rw [lookup_cons_self] at h
        injection h with h
        subst h
        exact List.mem_cons_self _ _
      · rw [List.lookup_cons] at h
        rw [show (k == k0) = false from beq_eq_false_iff_ne.mpr hk] at h
        exact List.mem_cons_of_mem _ (ih h)

/-! Characterization of one branch of the tree-builder loop. -/

theorem branchFor_of_gain_lt {t : ℚ} (rec : Dataset C V → Except BuildErr (PTree C V))
    {d : Dataset C V} {node : C} {gain : ℚ} {v : V} (hg : gain < t)
    (hne : (get_sub_table d node v).rows ≠ []) :
    ∃ l, (npUnique (colVals (get_sub_table d node v) (labelCol d))).head? = some l ∧
      branchFor t rec d node gain v = .ok (.leaf l) := by
  obtain ⟨l, hl⟩ := npUnique_head_some (colVals_ne_nil hne (labelCol d))
  refine ⟨l, hl, ?_⟩
  unfold branchFor
  dsimp only
  rw [if_pos hg, hl]

theorem branchFor_ok_cases {t : ℚ} {rec : Dataset C V → Except BuildErr (PTree C V)}
    {d : Dataset C V} {node : C} {gain : ℚ} {v : V} {c : PTree C V}
    (h : branchFor t rec d node gain v = .ok c) :
    (∃ l, c = .leaf l) ∨ rec (get_sub_table d node v) = .ok c := by
  unfold branchFor at h
  dsimp only at h
  split at h
  · match hh : (npUnique (colVals (get_sub_table d node v) (labelCol d))).head? with
    | none => rw [hh] at h; exact absurd h (by simp)
    | some l => rw [hh] at h; injection h with h; exact Or.inl ⟨l, h.symm⟩
  · split at h
    · match hh : (npUnique (colVals (get_sub_table d node v) (labelCol d))).head? with
      | none => rw [hh] at h; exact absurd h (by simp)
      | some l => rw [hh] at h; injection h with h; exact Or.inl ⟨l, h.symm⟩
    · exact Or.inr h

theorem branchFor_ne_emptyIndex {t : ℚ} {rec : Dataset C V → Except BuildErr (PTree C V)}
    {d : Dataset C V} {node : C} {gain : ℚ} {v : V}
    (hne : (get_sub_table d node v).rows ≠ [])
    (hrec : rec (get_sub_table d node v) ≠ .error .emptyIndex) :
    branchFor t rec d node gain v ≠ .error .emptyIndex := by
  obtain ⟨l, hl⟩ := npUnique_head_some (colVals_ne_nil hne (labelCol d))
  unfold branchFor
  dsimp only
  split
  · rw [hl]; simp
  · split
    · rw [hl]; simp
    · exact hrec

theorem branchFor_exists_ok {t : ℚ} {rec : Dataset C V → Except BuildErr (PTree C V)}
    {d : Dataset C V} {node : C} {gain : ℚ} {v : V}
    (hne : (get_sub_table d node v).rows ≠ [])
    (hrec : ∃ c, rec (get_sub_table d node v) = .ok c) :
    ∃ c, branchFor t rec d node gain v = .ok c := by
  obtain ⟨l, hl⟩ := npUnique_head_some (colVals_ne_nil hne (labelCol d))
  unfold branchFor
  dsimp only
  split
  · exact ⟨.leaf l, by rw [hl]⟩
  · split
    · exact ⟨.leaf l, by rw [hl]⟩
    · exact hrec

/-! Characterization of the tree-builder loop over distinct values. -/

theorem buildChildren_ok_map_fst {t : ℚ}
    {rec : Dataset C V → Except BuildErr (PTree C V)} {d : Dataset C V}
    {node : C} {gain : ℚ} : ∀ {vs : List V} {cs : List (V × PTree C V)},
    buildChildren t rec d node gain vs = .ok cs → cs.map Prod.fst = vs := by
  intro vs
  induction vs with
  | nil => intro cs h; unfold buildChildren at h; injection h with h; rw [← h]; rfl
  | cons v vs ih =>
    intro cs h
    unfold buildChildren at h
    match hb : branchFor t rec d node gain v with
    | .error e => rw [hb] at h; exact absurd h (by simp)
    | .ok c =>
      rw [hb] at h
      match hrest : buildChildren t rec d node gain vs with
      | .error e => rw [hrest] at h; exact absurd h (by simp)
      | .ok rest =>
        rw [hrest] at h
        injection h with h
        rw [← h]
        simp [ih hrest]

theorem buildChildren_ok_mem {t : ℚ}
    {rec : Dataset C V → Except BuildErr (PTree C V)} {d : Dataset C V}
    {node : C} {gain : ℚ} : ∀ {vs : List V} {cs : List (V × PTree C V)},
    buildChildren t rec d node gain vs = .ok cs →
    ∀ p ∈ cs, branchFor t rec d node gain p.1 = .ok p.2 := by
  intro vs
  induction vs with
  | nil =>
    intro cs h p hp
    unfold buildChildren at h
    injection h with h
    rw [← h] at hp
    exact absurd hp (List.not_mem_nil p)
  | cons v vs ih =>
    intro cs h p hp
    unfold buildChildren at h
    match hb : branchFor t rec d node gain v with
    | .error e => rw [hb] at h; exact absurd h (by simp)
    | .ok c =>
      rw [hb] at h
      match hrest : buildChildren t rec d node gain vs with
      | .error e => rw [hrest] at h; exact absurd h (by simp)
      | .ok rest =>
        rw [hrest] at h
        injection h with h
        rw [← h] at hp
        rcases List.mem_cons.mp hp with rfl | h2
        · exact hb
        · exact ih hrest p h2

theorem buildChildren_ok_lookup {t : ℚ}
    {rec : Dataset C V → Except BuildErr (PTree C V)} {d : Dataset C V}
    {node : C} {gain : ℚ} : ∀ {vs : List V} {cs : List (V × PTree C V)},
    vs.Nodup → buildChildren t rec d node gain vs = .ok cs →
    ∀ v ∈ vs, ∃ c, List.lookup v cs = some c ∧
      branchFor t rec d node gain v = .ok c := by
  intro vs
  induction vs with
  | nil => intro cs _ _ v hv; exact absurd hv (List.not_mem_nil v)
  | cons v0 vs ih =>
    intro cs hnd h v hv
    unfold buildChildren at h
    match hb : branchFor t rec d node gain v0 with
    | .error e => rw [hb] at h; exact absurd h (by simp)
    | .ok c =>
      rw [hb] at h
      match hrest : buildChildren t rec d node gain vs with
      | .error e => rw [hrest] at h; exact absurd h (by simp)
      | .ok rest =>
        rw [hrest] at h
        injection h with h
        subst h
        rcases List.mem_cons.mp hv with rfl | h2
        · exact ⟨c, lookup_cons_self _ _ _, hb⟩
        · have hvne : v ≠ v0 := by
            intro hvv
            subst hvv
            exact (List.nodup_cons.mp hnd).1 h2
          obtain ⟨c2, hl2, hb2⟩ := ih (List.nodup_cons.mp hnd).2 hrest v h2
          refine ⟨c2, ?_, hb2⟩
          rw [List.lookup_cons]
          rw [show (v == v0) = false from beq_eq_false_iff_ne.mpr hvne]
          exact hl2

theorem buildChildren_all_ok {t : ℚ}
    {rec : Dataset C V → Except BuildErr (PTree C V)} {d : Dataset C V}
    {node : C} {gain : ℚ} : ∀ {vs : List V},
    (∀ v ∈ vs, ∃ c, branchFor t rec d node gain v = .ok c) →
    ∃ cs, buildChildren t rec d node gain vs = .ok cs := by
  intro vs
  induction vs with
  | nil => intro _; exact ⟨[], rfl⟩
  | cons v vs ih =>
    intro h
    obtain ⟨c, hc⟩ := h v (List.mem_cons_self _ _)
    obtain ⟨cs, hcs⟩ := ih (fun w hw => h w (List.mem_cons_of_mem _ hw))
    refine ⟨(v, c) :: cs, ?_⟩
    unfold buildChildren
    rw [hc, hcs]

theorem buildChildren_ne_emptyIndex {t : ℚ}
    {rec : Dataset C V → Except BuildErr (PTree C V)} {d : Dataset C V}
    {node : C} {gain : ℚ} : ∀ {vs : List V},
    (∀ v ∈ vs, branchFor t rec d node gain v ≠ .error .emptyIndex) →
    buildChildren t rec d node gain vs ≠ .error .emptyIndex := by
  intro vs
  induction vs with
  | nil => intro _; simp [buildChildren]
  | cons v vs ih =>
    intro h
    unfold buildChildren
    match hb : branchFor t rec d node gain v with
    | .error e =>
      have := h v (List.mem_cons_self _ _)
      rw [hb] at this
      intro hcontra
      injection hcontra with hcontra
      subst hcontra
      exact this rfl
    | .ok c =>
      match hrest : buildChildren t rec d node gain vs with
      | .error e =>
        have := ih (fun w hw => h w (List.mem_cons_of_mem _ hw))
        rw [hrest] at this
        intro hcontra
        injection hcontra with hcontra
        subst hcontra
        exact this rfl
      | .ok rest => simp

/-! Destructuring of one level of the tree builder. -/

theorem build_tree_zero (ig : Dataset C V → C → ℚ) (t : ℚ) (d : Dataset C V) :
    build_tree ig t 0 d = .error .fuelOut := rfl

theorem build_tree_succ (ig : Dataset C V → C → ℚ) (t : ℚ) (fuel : Nat)
    (d : Dataset C V) :
    build_tree ig t (fuel + 1) d = buildStep ig t (build_tree ig t fuel) d := rfl

theorem build_tree_ok_destruct {ig : Dataset C V → C → ℚ} {t : ℚ} {fuel : Nat}
    {d : Dataset C V} {tr : PTree C V}
    (h : build_tree ig t (fuel + 1) d = .ok tr) :
    ∃ node gain children,
      find_best_column ig d = some (node, gain) ∧
      buildChildren t (build_tree ig t fuel) d node gain
        (npUnique (colVals d node)) = .ok children ∧
      tr = .node [(node, children)] := by
  rw [build_tree_succ] at h
  unfold buildStep at h
  match hfb : find_best_column ig d with
  | none => rw [hfb] at h; exact absurd h (by simp)
  | some (node, gain) =>
    rw [hfb] at h
    dsimp only at h
    match hbc : buildChildren t (build_tree ig t fuel) d node gain
        (npUnique (colVals d node)) with
    | .error e => rw [hbc] at h; exact absurd h (by simp)
    | .ok children =>
      rw [hbc] at h
      injection h with h
      exact ⟨node, gain, children, rfl, hbc, h.symm⟩

theorem buildStep_ok_of {ig : Dataset C V → C → ℚ} {t : ℚ}
    {rec : Dataset C V → Except BuildErr (PTree C V)} {d : Dataset C V}
    {node : C} {gain : ℚ} {children : List (V × PTree C V)}
    (hfb : find_best_column ig d = some (node, gain))
    (hbc : buildChildren t rec d node gain (npUnique (colVals d node)) = .ok children) :
    buildStep ig t rec d = .ok (.node [(node, children)]) := by
  unfold buildStep
  rw [hfb]
  dsimp only
  rw [hbc]

/-- Inside build_tree every enumerated value comes from the column it
partitions on, so column_values[0] never hits an empty array: the modelled
IndexError is unreachable at every recursion depth. -/
theorem build_tree_ne_emptyIndex (ig : Dataset C V → C → ℚ) (t : ℚ) :
    ∀ (fuel : Nat) (d : Dataset C V),
      build_tree ig t fuel d ≠ .error .emptyIndex := by
  intro fuel
  induction fuel with
  | zero => intro d; rw [build_tree_zero]; simp
  | succ fuel ih =>
    intro d
    rw [build_tree_succ]
    unfold buildStep
    match hfb : find_best_column ig d with
    | none => simp
    | some (node, gain) =>
      dsimp only
      have hbc : buildChildren t (build_tree ig t fuel) d node gain
          (npUnique (colVals d node)) ≠ .error .emptyIndex :=
        buildChildren_ne_emptyIndex (fun v hv =>
          branchFor_ne_emptyIndex (get_sub_table_rows_ne_nil hv) (ih _))
      match hb : buildChildren t (build_tree ig t fuel) d node gain
          (npUnique (colVals d node)) with
      | .error e => rw [hb] at hbc; simpa using hbc
      | .ok children => simp

/-! Partition-conservation machinery for the table partitioner. -/

theorem flatMap_congr_mem {α β : Type} {f g : α → List β} :
    ∀ {l : List α}, (∀ a ∈ l, f a = g a) → l.flatMap f = l.flatMap g := by
  intro l
  induction l with
  | nil => intro _; rfl
  | cons a tl ih =>
    intro h
    rw [List.flatMap_cons, List.flatMap_cons, h a (List.mem_cons_self _ _),
      ih (fun b hb => h b (List.mem_cons_of_mem _ hb))]

theorem flatMap_filter_cons_perm {α β : Type} [DecidableEq β] (key : α → β)
    (r : α) (rest : List α) :
    ∀ (vals : List β), vals.Nodup → key r ∈ vals →
      (vals.flatMap (fun v => (r :: rest).filter (fun x => decide (key x = v)))).Perm
        (r :: vals.flatMap (fun v => rest.filter (fun x => decide (key x = v)))) := by
  intro vals
  induction vals with
  | nil => intro _ hmem; exact absurd hmem (List.not_mem_nil _)
  | cons v0 vs ih =>
    intro hnd hmem
    rw [List.flatMap_cons, List.flatMap_cons]
    by_cases hkey : key r = v0
    · have hfilter : (r :: rest).filter (fun x => decide (key x = v0)) =
          r :: rest.filter (fun x => decide (key x = v0)) := by
        simp [List.filter_cons, hkey]
      have htail : vs.flatMap (fun v => (r :: rest).filter (fun x => decide (key x = v))) =
          vs.flatMap (fun v => rest.filter (fun x => decide (key x = v))) := by
        apply flatMap_congr_mem
        intro v hv
        have hne : key r ≠ v := by
          intro hrv
          exact (List.nodup_cons.mp hnd).1 ((hkey.symm.trans hrv) ▸ hv)
        simp [List.filter_cons, hne]
      rw [hfilter, htail, List.cons_append]
    · have hfilter : (r :: rest).filter (fun x => decide (key x = v0)) =
          rest.filter (fun x => decide (key x = v0)) := by
        simp [List.filter_cons, hkey]
      rw [hfilter]
      have hmem2 : key r ∈ vs := by
        rcases List.mem_cons.mp hmem with h | h
        · exact absurd h hkey
        · exact h
      have hperm := ih (List.nodup_cons.mp hnd).2 hmem2
      exact (List.Perm.append_left _ hperm).trans List.perm_middle

theorem flatMap_filter_perm {α β : Type} [DecidableEq β] (key : α → β)
    (vals : List β) : ∀ (rows : List α), vals.Nodup →
      (∀ r ∈ rows, key r ∈ vals) →
      (vals.flatMap (fun v => rows.filter (fun x => decide (key x = v)))).Perm rows := by
  intro rows
  induction rows with
  | nil =>
    intro _ _
    have : vals.flatMap (fun v => ([] : List α).filter (fun x => decide (key x = v))) =
        [] := by simp
    rw [this]
  | cons r rest ih =>
    intro hnd hcov
    have h1 := flatMap_filter_cons_perm key r rest vals hnd
      (hcov r (List.mem_cons_self _ _))
    have h2 := ih hnd (fun x hx => hcov x (List.mem_cons_of_mem _ hx))
    exact h1.trans (h2.cons r)

/-- Soundness of predict on trees produced by build_tree: with traversal
depth one above the building depth, predict raises nothing and returns
either the sentinel or a leaf label of the tree. -/
theorem predict_sound (ig : Dataset C V → C → ℚ) (t : ℚ) :
    ∀ (fuel : Nat) (d : Dataset C V) (tr : PTree C V),
      build_tree ig t fuel d = .ok tr →
      ∀ record : List (C × V),
        ∃ p, predict (fuel + 1) tr record = .ok p ∧
          (p = none ∨ ∃ l, LeafIn l tr ∧ p = some l) := by
  intro fuel
  induction fuel with
  | zero =>
    intro d tr h
    rw [build_tree_zero] at h
    exact absurd h (by simp)
  | succ fuel ih =>
    intro d tr h record
    obtain ⟨node, gain, cs, hfb, hbc, htr⟩ := build_tree_ok_destruct h
    subst htr
    match hrec : List.lookup node record with
    | none =>
      refine ⟨none, ?_, Or.inl rfl⟩
      simp [predict, predictGo, hrec]
    | some w =>
      match hlv : List.lookup w cs with
      | none =>
        refine ⟨none, ?_, Or.inl rfl⟩
        simp [predict, predictGo, hrec, hlv, List.lookup]
      | some child =>
        have hmem : (w, child) ∈ cs := lookup_mem hlv
        have hbr := buildChildren_ok_mem hbc (w, child) hmem
        match child, hbr, hmem with
        | .leaf l, hbr, hmem =>
          refine ⟨some l, ?_, Or.inr ⟨l, ?_, rfl⟩⟩
          · simp [predict, predictGo, hrec, hlv, List.lookup]
          · exact LeafIn.there l _ node cs w (.leaf l)
              (List.mem_cons_self _ _) hmem (LeafIn.here l)
        | .node es2, hbr, hmem =>
          rcases branchFor_ok_cases hbr with ⟨l, hleaf⟩ | hrec2
          · exact absurd hleaf (by simp)
          · obtain ⟨p, hp, hprop⟩ :=
              ih (get_sub_table d node w) (.node es2) hrec2 record
            have hp2 : predictGo record (fuel + 1) (es2.map Prod.fst) es2 none =
                .ok p := hp
            refine ⟨p, ?_, ?_⟩
            · simp [predict, predictGo, hrec, hlv, List.lookup, hp2]
            · rcases hprop with hnone | ⟨l, hin, hsome⟩
              · exact Or.inl hnone
              · exact Or.inr ⟨l, LeafIn.there l _ node cs w (.node es2)
                  (List.mem_cons_self _ _) hmem hin, hsome⟩

/-- On a single-column root whose lookup misses (column absent from the
record or value absent from the child map) predict returns the sentinel. -/
theorem predict_root_miss {col : C} {m : List (V × PTree C V)}
    {record : List (C × V)} (fuel : Nat)
    (h : List.lookup col record = none ∨
      ∃ w, List.lookup col record = some w ∧ List.lookup w m = none) :
    predict (fuel + 2) (.node [(col, m)]) record = .ok none := by
  rcases h with h | ⟨w, hw, hm⟩
  · simp [predict, predictGo, h]
  · simp [predict, predictGo, hw, hm, List.lookup]

/-- The evaluation loop completes whenever predict completes on every
record. -/
theorem testLoop_ok (pfuel : Nat) (tr : PTree C V) (d : Dataset C V)
    (hall : ∀ record, ∃ p, predict pfuel tr record = .ok p) :
    ∀ rows score preds, ∃ s2 p2,
      testLoop pfuel tr d rows score preds = .ok (s2, p2) := by
  intro rows
  induction rows with
  | nil => intro score preds; exact ⟨score, preds, rfl⟩
  | cons row rest ih =>
    intro score preds
    obtain ⟨p, hp⟩ := hall (d.cols.zip row)
    unfold testLoop
    rw [hp]
    dsimp only
    exact ih _ _

/-! Concrete instances used as witnesses and counterexamples.  exD is the
example dataset of the spec (features A, B and label Y, with yes encoded as
1 and no as 0); exIg is a concrete stand-in for the external info_gain
collaborator, chosen so that A wins at the root and B wins on the two-row
subset, as the real information gain does on this data. -/

def exD : Dataset String Nat :=
  ⟨["A", "B", "Y"], [[1, 1, 1], [1, 0, 0], [0, 1, 0], [0, 0, 0]]⟩

def exIg : Dataset String Nat → String → ℚ := fun d c =>
  if c = "B" ∧ d.rows.length = 2 then 3 else if c = "A" then 2 else 1

def exSub : PTree String Nat :=
  .node [("B", [(0, .leaf 0), (1, .leaf 1)])]

def exChildren : List (Nat × PTree String Nat) :=
  [(0, .leaf 0), (1, exSub)]

def exTree : PTree String Nat := .node [("A", exChildren)]

/-- Dataset with a single constant feature column A and an impure label
column L: the only candidate split leaves the dataset unchanged. -/
def exD3 : Dataset String Nat := ⟨["A", "L"], [[0, 0], [0, 1]]⟩

/-- Gain function that is identically zero, consistent with the spec
contract for info_gain on non-informative columns. -/
def igZero : Dataset String Nat → String → ℚ := fun _ _ => 0

/-- C1: in build_tree, whenever the selected best column's gain is below
the pruning threshold, the branch for every distinct value v of that column
is a Leaf holding the first distinct label value of the partition at v in
ascending order (head of np.unique of its labels); and when the threshold
exceeds the gain of every candidate column, build_tree returns a depth-1
tree: a single root node all of whose branches are leaves. -/
theorem c1_low_gain_prunes_to_leaf (ig : Dataset C V → C → ℚ) (t : ℚ)
    (d : Dataset C V) (fuel : Nat) (hr : d.rows ≠ [])
    (hc : d.cols.dropLast ≠ []) :
    (∀ (node : C) (gain : ℚ) (v : V),
      find_best_column ig d = some (node, gain) → gain < t →
      v ∈ npUnique (colVals d node) →
      ∃ l cs,
        (npUnique (colVals (get_sub_table d node v) (labelCol d))).head? = some l ∧
        build_tree ig t (fuel + 1) d = .ok (.node [(node, cs)]) ∧
        List.lookup v cs = some (.leaf l)) ∧
    ((∀ k ∈ d.cols.dropLast, ig d k < t) →
      ∃ node cs, build_tree ig t (fuel + 1) d = .ok (.node [(node, cs)]) ∧
        cs ≠ [] ∧ ∀ p ∈ cs, ∃ l, p.2 = PTree.leaf l) := by
  constructor
  · intro node gain v hfb hglt hv
    have hball : ∀ w ∈ npUnique (colVals d node),
        ∃ c2, branchFor t (build_tree ig t fuel) d node gain w = .ok c2 := by
      intro w hw
      obtain ⟨l, _, hbl⟩ := branchFor_of_gain_lt (build_tree ig t fuel)
        hglt (get_sub_table_rows_ne_nil hw)
      exact ⟨.leaf l, hbl⟩
    obtain ⟨cs, hcs⟩ := buildChildren_all_ok hball
    obtain ⟨c1, hlook, hbr⟩ :=
      buildChildren_ok_lookup (nodup_npUnique _) hcs v hv
    obtain ⟨l, hl, hbl⟩ := branchFor_of_gain_lt (build_tree ig t fuel)
      hglt (get_sub_table_rows_ne_nil hv)
    have hc1 : c1 = .leaf l := by
      have := hbr.symm.trans hbl
      injection this
    refine ⟨l, cs, hl, ?_, ?_⟩
    · rw [build_tree_succ]
      exact buildStep_ok_of hfb hcs
    · rw [hlook, hc1]
  · intro hall
    obtain ⟨node, gain, i, hfb, hkey, higeq, hle, _⟩ :=
      find_best_column_some ig hc
    have hglt : gain < t := by
      rw [← higeq]
      exact hall node (List.get?_mem hkey)
    have hball : ∀ w ∈ npUnique (colVals d node),
        ∃ c2, branchFor t (build_tree ig t fuel) d node gain w = .ok c2 := by
      intro w hw
      obtain ⟨l, _, hbl⟩ := branchFor_of_gain_lt (build_tree ig t fuel)
        hglt (get_sub_table_rows_ne_nil hw)
      exact ⟨.leaf l, hbl⟩
    obtain ⟨cs, hcs⟩ := buildChildren_all_ok hball
    refine ⟨node, cs, ?_, ?_, ?_⟩
    · rw [build_tree_succ]
      exact buildStep_ok_of hfb hcs
    · intro hnil
      have hmap := buildChildren_ok_map_fst hcs
      rw [hnil] at hmap
      exact npUnique_ne_nil (colVals_ne_nil hr node) hmap.symm
    · intro p hp
      have hbr := buildChildren_ok_mem hcs p hp
      have hpv : p.1 ∈ npUnique (colVals d node) := by
        rw [← buildChildren_ok_map_fst hcs]
        exact List.mem_map.mpr ⟨p, hp, rfl⟩
      obtain ⟨l, _, hbl⟩ := branchFor_of_gain_lt (build_tree ig t fuel)
        hglt (get_sub_table_rows_ne_nil hpv)
      have := hbr.symm.trans hbl
      injection this with this
      exact ⟨l, this⟩

/-- C4: find_best_column returns the pair of the column with the maximum
information gain over all columns but the last (label) column and that
maximum gain; ties break to the first such column in left-to-right order
(every strictly earlier candidate has strictly smaller gain). -/
theorem c4_find_best_column_argmax (ig : Dataset C V → C → ℚ)
    (d : Dataset C V) (hc : d.cols.dropLast ≠ []) (hr : d.rows ≠ []) :
    ∃ c g i, find_best_column ig d = some (c, g) ∧
      c ∈ d.cols.dropLast ∧
      d.cols.dropLast.get? i = some c ∧ ig d c = g ∧
      (∀ k ∈ d.cols.dropLast, ig d k ≤ g) ∧
      (∀ j, j < i → ∀ k, d.cols.dropLast.get? j = some k → ig d k < g) := by
  obtain ⟨c, g, i, heq, hkey, higeq, hle, hfirst⟩ :=
    find_best_column_some ig hc
  exact ⟨c, g, i, heq, List.get?_mem hkey, hkey, higeq, hle, hfirst⟩

/-- C5: get_sub_table returns exactly the rows whose value in the given
column equals the given value, in original relative order (a sublist of the
dataset rows); with at most 100 matches it returns all of them, with more
than 100 matches it returns exactly the first 100 in original order. -/
theorem c5_get_sub_table_spec (d : Dataset C V) (c : C) (v : V) :
    (get_sub_table d c v).cols = d.cols ∧
    (get_sub_table d c v).rows =
      (d.rows.filter (fun r => decide (cell d r c = v))).take 100 ∧
    (get_sub_table d c v).rows.Sublist d.rows ∧
    (∀ r ∈ (get_sub_table d c v).rows, cell d r c = v) ∧
    ((d.rows.filter (fun r => decide (cell d r c = v))).length ≤ 100 →
      (get_sub_table d c v).rows =
        d.rows.filter (fun r => decide (cell d r c = v))) ∧
    (100 < (d.rows.filter (fun r => decide (cell d r c = v))).length →
      (get_sub_table d c v).rows.length = 100) := by
  refine ⟨get_sub_table_cols d c v, get_sub_table_rows d c v,
    get_sub_table_sublist d c v, ?_, ?_, ?_⟩
  · intro r hr
    rw [get_sub_table_rows] at hr
    have := List.mem_filter.mp (List.mem_of_mem_take hr)
    simpa using this.2
  · intro hle
    rw [get_sub_table_rows]
    exact List.take_of_length_le hle
  · intro hgt
    rw [get_sub_table_rows, List.length_take]
    omega

/-- C6: when every distinct value of a column matches at most 100 rows, the
partitions of get_sub_table over the distinct values of that column are a
permutation of the dataset rows: no row duplicated, no row dropped. -/
theorem c6_partition_conservation (d : Dataset C V) (c : C)
    (hcap : ∀ v : V,
      (d.rows.filter (fun r => decide (cell d r c = v))).length ≤ 100) :
    ((npUnique (colVals d c)).flatMap
      (fun v => (get_sub_table d c v).rows)).Perm d.rows := by
  have hrw : ∀ v, (get_sub_table d c v).rows =
      d.rows.filter (fun r => decide (cell d r c = v)) := by
    intro v
    rw [get_sub_table_rows]
    exact List.take_of_length_le (hcap v)
  rw [flatMap_congr_mem (fun v _ => hrw v)]
  exact flatMap_filter_perm (fun r => cell d r c) (npUnique (colVals d c))
    d.rows (nodup_npUnique _)
    (fun r hr => mem_npUnique.mpr (mem_colVals.mpr ⟨r, hr, rfl⟩))

/-- C7: every tree returned by build_tree satisfies the structural
invariant TreeFrom: each internal node holds exactly one column, its child
map has exactly one entry per distinct observed value of that column in the
dataset it was built from (keys equal to np.unique of the column), and each
internal child satisfies the invariant for the corresponding partition. -/
theorem c7_node_invariant (ig : Dataset C V → C → ℚ) (t : ℚ) :
    ∀ (fuel : Nat) (d : Dataset C V) (tr : PTree C V),
      build_tree ig t fuel d = .ok tr → TreeFrom d tr := by
  intro fuel
  induction fuel with
  | zero =>
    intro d tr h
    rw [build_tree_zero] at h
    exact absurd h (by simp)
  | succ fuel ih =>
    intro d tr h
    obtain ⟨node, gain, cs, hfb, hbc, htr⟩ := build_tree_ok_destruct h
    subst htr
    refine TreeFrom.node d node cs (buildChildren_ok_map_fst hbc) ?_
    intro v child hmem
    have hbr := buildChildren_ok_mem hbc (v, child) hmem
    rcases branchFor_ok_cases hbr with ⟨l, hleaf⟩ | hrec2
    · have hleaf2 : child = PTree.leaf l := hleaf
      rw [hleaf2]
      exact TreeFrom.leaf _ l
    · exact ih _ _ hrec2

/-- C10: every value enumerated by np.unique of a column occurs in some
row, so the corresponding partition is non-empty, and consequently the
column_values[0] indexing inside build_tree can never hit an empty array:
the modelled IndexError is unreachable at every recursion depth. -/
theorem c10_no_empty_partition (ig : Dataset C V → C → ℚ) (t : ℚ)
    (d : Dataset C V) (hr : d.rows ≠ []) :
    (∀ (c : C) (v : V), v ∈ npUnique (colVals d c) →
      (get_sub_table d c v).rows ≠ []) ∧
    (∀ fuel, build_tree ig t fuel d ≠ .error .emptyIndex) :=
  ⟨fun _ _ hv => get_sub_table_rows_ne_nil hv,
    fun fuel => build_tree_ne_emptyIndex ig t fuel d⟩

/-- C2 (amended): predict never raises on a tree produced by build_tree;
when the root column is absent from the record or the record's value has no
child branch at the root, it returns the sentinel; in every case the result
is either the sentinel or a leaf label of the tree — the sentinel can also
surface when a lookup deeper inside the tree misses, even though the root
lookup succeeds. -/
theorem c2_predict_total_amended (ig : Dataset C V → C → ℚ) (t : ℚ)
    (fuel : Nat) (d : Dataset C V) (tr : PTree C V) (record : List (C × V))
    (h : build_tree ig t fuel d = .ok tr) :
    (∃ p, predict (fuel + 1) tr record = .ok p ∧
      (p = none ∨ ∃ l, LeafIn l tr ∧ p = some l)) ∧
    (∀ col m, tr = .node [(col, m)] →
      (List.lookup col record = none ∨
        ∃ w, List.lookup col record = some w ∧ List.lookup w m = none) →
      predict (fuel + 1) tr record = .ok none) := by
  constructor
  · exact predict_sound ig t fuel d tr h record
  · intro col m htr hmiss
    subst htr
    match fuel, h with
    | fuel + 1, h => exact predict_root_miss fuel hmiss

/-- C2 counterexample: on the tree built from the spec's example dataset,
the record (A = 1, B = 5) finds the root column in the record and a child
branch for its value, yet predict returns the sentinel (the deeper lookup
for B = 5 misses), not a leaf label of the tree. -/
theorem c2_counterexample :
    build_tree exIg 1 3 exD = .ok exTree ∧
    List.lookup "A" [("A", (1 : Nat)), ("B", 5)] = some 1 ∧
    List.lookup (1 : Nat) exChildren = some exSub ∧
    predict 5 exTree [("A", 1), ("B", 5)] = .ok none ∧
    ∀ l : Nat, (Except.ok (some l) : Except PredErr (Option Nat)) ≠ .ok none := by
  refine ⟨rfl, rfl, rfl, rfl, ?_⟩
  intro l h
  injection h with h
  exact Option.noConfusion h

/-- Helper for the non-termination counterexample: one level of build_tree
on a dataset whose selected column has a single distinct value v0 with the
partition unchanged, gain not below the threshold, and impure labels,
propagates the error of the recursive call on the very same dataset. -/
theorem buildStep_const_column (ig : Dataset C V → C → ℚ) (t : ℚ)
    (rec : Dataset C V → Except BuildErr (PTree C V)) (d : Dataset C V)
    (node : C) (gain : ℚ) (v0 : V)
    (hfb : find_best_column ig d = some (node, gain))
    (hvals : npUnique (colVals d node) = [v0])
    (hg : ¬ gain < t)
    (hpure : ¬ (npUnique (colVals (get_sub_table d node v0) (labelCol d))).length = 1)
    {e : BuildErr} (hrec : rec (get_sub_table d node v0) = .error e) :
    buildStep ig t rec d = .error e := by
  unfold buildStep
  rw [hfb]
  dsimp only
  rw [hvals]
  unfold buildChildren branchFor
  dsimp only
  rw [if_neg hg, if_neg hpure, hrec]

/-- C3 counterexample: on the two-row dataset exD3 the selected column A is
constant, so the recursive call receives the whole dataset again, not a
strict row subset; with threshold 0 and the identically-zero gain (the spec
contract's value for a non-informative column) the gain test never fires,
the labels stay impure, and build_tree recurses forever: it fails with
exhausted depth at every modelled recursion depth. -/
theorem c3_counterexample :
    get_sub_table exD3 "A" 0 = exD3 ∧
    ∀ fuel, build_tree igZero 0 fuel exD3 = .error .fuelOut := by
  refine ⟨rfl, ?_⟩
  intro fuel
  induction fuel with
  | zero => rfl
  | succ fuel ih =>
    rw [build_tree_succ]
    exact buildStep_const_column igZero 0
      (build_tree igZero 0 fuel) exD3 "A"
      0 0 (by decide) (by decide) (by simp) (by decide)
      (by rw [show get_sub_table exD3 "A" 0 = exD3 from rfl]; exact ih)

/-- C3 (amended): the recursive call of build_tree receives a strict row
subset whenever the selected column has at least two distinct values; when
it has at most one distinct value the partition can equal the whole
dataset, but then — for any threshold t greater than 0 and a gain function
that, per the spec contract for info_gain, assigns 0 to such
non-informative columns — the gain-threshold rule prunes the branch to a
leaf, so build_tree terminates: recursion depth one above the row count
always suffices. -/
theorem c3_termination_amended (ig : Dataset C V → C → ℚ) (t : ℚ)
    (hig : ∀ (d : Dataset C V) (c : C), c ∈ d.cols.dropLast →
      (npUnique (colVals d c)).length ≤ 1 → ig d c = 0)
    (ht : 0 < t) :
    (∀ (d : Dataset C V) (c : C) (v : V),
      2 ≤ (npUnique (colVals d c)).length → v ∈ npUnique (colVals d c) →
      (get_sub_table d c v).rows.length < d.rows.length) ∧
    (∀ (fuel : Nat) (d : Dataset C V), d.cols.dropLast ≠ [] →
      d.rows.length < fuel → ∃ tr, build_tree ig t fuel d = .ok tr) := by
  constructor
  · intro d c v hlen hv
    exact get_sub_table_rows_length_lt hlen hv
  · intro fuel
    induction fuel with
    | zero => intro d _ hlen; omega
    | succ fuel ih =>
      intro d hcols hlen
      obtain ⟨node, gain, i, hfb, hkey, higeq, hle, _⟩ :=
        find_best_column_some ig hcols
      by_cases hv2 : 2 ≤ (npUnique (colVals d node)).length
      · have hball : ∀ v ∈ npUnique (colVals d node),
            ∃ c2, branchFor t (build_tree ig t fuel) d node gain v = .ok c2 := by
          intro v hv
          apply branchFor_exists_ok (get_sub_table_rows_ne_nil hv)
          have hsublt := get_sub_table_rows_length_lt hv2 hv
          have hsubcols := get_sub_table_cols d node v
          exact ih (get_sub_table d node v)
            (by rw [hsubcols]; exact hcols) (by omega)
        obtain ⟨cs, hcs⟩ := buildChildren_all_ok hball
        exact ⟨_, by rw [build_tree_succ]; exact buildStep_ok_of hfb hcs⟩
      · have hg0 : ig d node = 0 :=
          hig d node (List.get?_mem hkey) (by omega)
        have hglt : gain < t := by
          rw [← higeq, hg0]
          exact ht
        have hball : ∀ v ∈ npUnique (colVals d node),
            ∃ c2, branchFor t (build_tree ig t fuel) d node gain v = .ok c2 := by
          intro v hv
          obtain ⟨l, _, hbl⟩ := branchFor_of_gain_lt (build_tree ig t fuel)
            hglt (get_sub_table_rows_ne_nil hv)
          exact ⟨.leaf l, hbl⟩
        obtain ⟨cs, hcs⟩ := buildChildren_all_ok hball
        exact ⟨_, by rw [build_tree_succ]; exact buildStep_ok_of hfb hcs⟩

/-- C8 (amended): with a non-empty test dataset the evaluation reports
accuracy computed as correct / total * 100 over the full row count; with an
empty test dataset it divides by zero — the modelled ZeroDivisionError —
instead of reporting an undefined state. -/
theorem c8_eval_amended (ig : Dataset C V → C → ℚ) (t : ℚ) (fuel : Nat)
    (dtrain dtest : Dataset C V) (tr : PTree C V)
    (hb : build_tree ig t fuel dtrain = .ok tr) :
    (dtest.rows = [] → testEval (fuel + 1) tr dtest = .error .zeroDiv) ∧
    (dtest.rows ≠ [] → ∃ r : Report V, testEval (fuel + 1) tr dtest = .ok r ∧
      r.total = dtest.rows.length ∧
      r.accuracy = (r.score : ℚ) / (r.total : ℚ) * 100) := by
  constructor
  · intro hnil
    unfold testEval
    rw [hnil]
    simp [testLoop]
  · intro hne
    have hall : ∀ record, ∃ p, predict (fuel + 1) tr record = .ok p := by
      intro record
      obtain ⟨p, hp, _⟩ := predict_sound ig t fuel dtrain tr hb record
      exact ⟨p, hp⟩
    obtain ⟨s2, p2, hloop⟩ := testLoop_ok (fuel + 1) tr dtest hall dtest.rows 0 []
    refine ⟨⟨s2, dtest.rows.length, p2,
      (s2 : ℚ) / (dtest.rows.length : ℚ) * 100⟩, ?_, rfl, rfl⟩
    unfold testEval
    rw [hloop]
    dsimp only
    rw [if_neg (fun h0 => hne (List.length_eq_zero.mp h0))]

/-- C8 counterexample: on an empty test dataset the evaluation raises the
division-by-zero error of score / len(test_data) rather than returning any
report. -/
theorem c8_counterexample :
    build_tree exIg 1 3 exD = .ok exTree ∧
    testEval 4 exTree (⟨["A", "B", "Y"], []⟩ : Dataset String Nat) =
      .error .zeroDiv ∧
    ∀ r : Report Nat,
      testEval 4 exTree (⟨["A", "B", "Y"], []⟩ : Dataset String Nat) ≠ .ok r := by
  refine ⟨rfl, rfl, ?_⟩
  intro r h
  rw [show testEval 4 exTree (⟨["A", "B", "Y"], []⟩ : Dataset String Nat) =
    .error .zeroDiv from rfl] at h
  exact Except.noConfusion h

/-- C9 (amended): applying predict to a bare Leaf raises AttributeError
(tree.keys() on a non-dict) instead of returning the label; a Leaf's label
is returned when the Leaf is reached through a successful child lookup from
an internal node. -/
theorem c9_leaf_amended (fuel : Nat) (c : C) (v l : V)
    (record : List (C × V)) (h : List.lookup c record = some v) :
    (∀ (w : V) (r2 : List (C × V)) (f2 : Nat),
      predict f2 (PTree.leaf w) r2 = .error .attributeError) ∧
    predict (fuel + 1) (PTree.node [(c, [(v, PTree.leaf l)])]) record =
      .ok (some l) := by
  constructor
  · intro w r2 f2
    rfl
  · simp [predict, predictGo, h, List.lookup]

/-- C9 counterexample: predict applied to a bare Leaf raises the modelled
AttributeError and returns no value at all, in particular not the Leaf's
label. -/
theorem c9_counterexample :
    predict 5 (PTree.leaf (0 : Nat)) ([("A", 1)] : List (String × Nat)) =
      .error .attributeError ∧
    ∀ p : Option Nat,
      (Except.error PredErr.attributeError : Except PredErr (Option Nat)) ≠
        .ok p :=
  ⟨rfl, fun _ h => Except.noConfusion h⟩

/-! Witnesses: each claim theorem applied at a concrete instance with its
hypotheses discharged by evaluation. -/

/-- Evaluation of the tree builder on the example dataset: A is selected at
the root, the A = 0 branch is a pure leaf, and the A = 1 branch splits on
B. -/
theorem exTree_built : build_tree exIg 1 3 exD = .ok exTree := rfl

theorem c1_witness :
    ∃ l cs,
      (npUnique (colVals (get_sub_table exD "A" 1) (labelCol exD))).head? =
        some l ∧
      build_tree exIg 99 (0 + 1) exD = .ok (.node [("A", cs)]) ∧
      List.lookup (1 : Nat) cs = some (.leaf l) :=
  (c1_low_gain_prunes_to_leaf exIg 99 exD 0 (by decide) (by decide)).1
    "A" 2 1 (by decide) (by decide) (by decide)

theorem c2_witness :
    (∃ p, predict (3 + 1) exTree [("A", (0 : Nat))] = .ok p ∧
      (p = none ∨ ∃ l, LeafIn l exTree ∧ p = some l)) ∧
    (∀ col m, exTree = .node [(col, m)] →
      (List.lookup col [("A", (0 : Nat))] = none ∨
        ∃ w, List.lookup col [("A", (0 : Nat))] = some w ∧
          List.lookup w m = none) →
      predict (3 + 1) exTree [("A", (0 : Nat))] = .ok none) :=
  c2_predict_total_amended exIg 1 3 exD exTree [("A", 0)] rfl

theorem c3_witness : ∃ tr, build_tree igZero 1 3 exD3 = .ok tr :=
  (c3_termination_amended igZero 1 (fun _ _ _ _ => rfl) (by decide)).2 3 exD3
    (by decide) (by decide)

theorem c4_witness :
    ∃ c g i, find_best_column exIg exD = some (c, g) ∧
      c ∈ exD.cols.dropLast ∧
      exD.cols.dropLast.get? i = some c ∧ exIg exD c = g ∧
      (∀ k ∈ exD.cols.dropLast, exIg exD k ≤ g) ∧
      (∀ j, j < i → ∀ k, exD.cols.dropLast.get? j = some k →
        exIg exD k < g) :=
  c4_find_best_column_argmax exIg exD (by decide) (by decide)

theorem c5_witness :
    (get_sub_table exD "A" (1 : Nat)).cols = exD.cols ∧
    (get_sub_table exD "A" 1).rows =
      (exD.rows.filter (fun r => decide (cell exD r "A" = 1))).take 100 ∧
    (get_sub_table exD "A" 1).rows.Sublist exD.rows ∧
    (∀ r ∈ (get_sub_table exD "A" 1).rows, cell exD r "A" = 1) ∧
    ((exD.rows.filter (fun r => decide (cell exD r "A" = 1))).length ≤ 100 →
      (get_sub_table exD "A" 1).rows =
        exD.rows.filter (fun r => decide (cell exD r "A" = 1))) ∧
    (100 < (exD.rows.filter (fun r => decide (cell exD r "A" = 1))).length →
      (get_sub_table exD "A" 1).rows.length = 100) :=
  c5_get_sub_table_spec exD "A" 1

theorem c6_witness :
    ((npUnique (colVals exD "A")).flatMap
      (fun v => (get_sub_table exD "A" v).rows)).Perm exD.rows :=
  c6_partition_conservation exD "A"
    (fun _ => le_trans (List.length_filter_le _ _) (by decide))

theorem c7_witness : TreeFrom exD exTree :=
  c7_node_invariant exIg 1 3 exD exTree rfl

theorem c8_witness :
    ∃ r : Report Nat, testEval (3 + 1) exTree exD = .ok r ∧
      r.total = exD.rows.length ∧
      r.accuracy = (r.score : ℚ) / (r.total : ℚ) * 100 :=
  (c8_eval_amended exIg 1 3 exD exD exTree exTree_built).2 (by decide)

theorem c9_witness :
    (∀ (w : Nat) (r2 : List (String × Nat)) (f2 : Nat),
      predict f2 (PTree.leaf w) r2 = .error .attributeError) ∧
    predict (0 + 1) (PTree.node [("A", [((1 : Nat), PTree.leaf (7 : Nat))])])
      [("A", 1)] = .ok (some 7) :=
  c9_leaf_amended 0 "A" 1 7 [("A", 1)] rfl

theorem c10_witness :
    (∀ (c : String) (v : Nat), v ∈ npUnique (colVals exD c) →
      (get_sub_table exD c v).rows ≠ []) ∧
    (∀ fuel, build_tree exIg 1 fuel exD ≠ .error .emptyIndex) :=
  c10_no_empty_partition exIg 1 exD (by decide)

end DecisionTrees
